/-
Verification of the acquisition functions in AcquisitionFunctions.py
(PI, EI and GP-UCB acquisition functions from Brochu et al. 2010).

The three Python functions are pure real-arithmetic formulas.  They are
embedded here over the real numbers:
  * scipy.stats.norm.pdf is the standard normal density, embedded as
    `normPdf` via Mathlib's `ProbabilityTheory.gaussianPDFReal 0 1`;
  * scipy.stats.norm.cdf is the standard normal cumulative distribution
    function, embedded as `normCdf`, the integral of the density over
    `Set.Iic z`;
  * numpy.sqrt, numpy.log, numpy.pi and the float power `**` become
    `Real.sqrt`, `Real.log`, `Real.pi` and real exponentiation `rpow`
    (the Python exponent `d/2. + 2` is float division, hence real
    division here).
-/
import Mathlib

open MeasureTheory ProbabilityTheory Real Set Filter Topology

/-- Standard normal probability density function: the meaning of
`scipy.stats.norm.pdf` in the source. -/
noncomputable def normPdf (z : ℝ) : ℝ := gaussianPDFReal 0 1 z

/-- Standard normal cumulative distribution function: the meaning of
`scipy.stats.norm.cdf` in the source. -/
noncomputable def normCdf (z : ℝ) : ℝ := ∫ t in Iic z, gaussianPDFReal 0 1 t

/-- `PIacquisition(muNew, stdNew, fMax, epsilon)` from
AcquisitionFunctions.py lines 26-28:
`Z = (muNew - fMax - epsilon)/stdNew; return scipy.stats.norm.cdf(Z)`. -/
noncomputable def PIacquisition (muNew stdNew fMax epsilon : ℝ) : ℝ :=
  normCdf ((muNew - fMax - epsilon) / stdNew)

/-- `EIacquisition(muNew, stdNew, fMax, epsilon)` from
AcquisitionFunctions.py lines 51-53:
`Z = (muNew - fMax - epsilon)/stdNew;
 return (muNew - fMax - epsilon)*norm.cdf(Z) + stdNew*norm.pdf(Z)`. -/
noncomputable def EIacquisition (muNew stdNew fMax epsilon : ℝ) : ℝ :=
  (muNew - fMax - epsilon) * normCdf ((muNew - fMax - epsilon) / stdNew)
    + stdNew * normPdf ((muNew - fMax - epsilon) / stdNew)

/-- The argument of `numpy.log` inside `UCBacquisition`:
`(t**(d/2. + 2))*(numpy.pi**2)/(3. * delta)`. -/
noncomputable def UCBlogArg (t d delta : ℝ) : ℝ :=
  t ^ (d / 2 + 2) * Real.pi ^ 2 / (3 * delta)

/-- The intermediate `Kappa` of AcquisitionFunctions.py line 80:
`Kappa = numpy.sqrt( v* (2*  numpy.log( (t**(d/2. + 2))*(numpy.pi**2)/(3. * delta)  )))`. -/
noncomputable def UCBkappa (t d v delta : ℝ) : ℝ :=
  Real.sqrt (v * (2 * Real.log (UCBlogArg t d delta)))

/-- `UCBacquisition(muNew, stdNew, t, d, v, delta)` from
AcquisitionFunctions.py lines 80-82: `return muNew + Kappa * stdNew`. -/
noncomputable def UCBacquisition (muNew stdNew t d v delta : ℝ) : ℝ :=
  muNew + UCBkappa t d v delta * stdNew

/-- `UCBacquisition` with its Python default arguments `v=1, delta=.1`. -/
noncomputable def UCBacquisitionDefault (muNew stdNew t d : ℝ) : ℝ :=
  UCBacquisition muNew stdNew t d 1 0.1

/-! ### Basic facts about the embedded normal density and cdf -/

lemma normPdf_eq (z : ℝ) : normPdf z = Real.exp (-(z ^ 2) / 2) / Real.sqrt (2 * Real.pi) := by
  simp only [normPdf, gaussianPDFReal, NNReal.coe_one, mul_one, sub_zero]
  rw [inv_mul_eq_div]

lemma normPdf_nonneg (z : ℝ) : 0 ≤ normPdf z := gaussianPDFReal_nonneg 0 1 z

lemma normCdf_nonneg (z : ℝ) : 0 ≤ normCdf z :=
  setIntegral_nonneg measurableSet_Iic fun t _ => gaussianPDFReal_nonneg 0 1 t

lemma normCdf_le_one (z : ℝ) : normCdf z ≤ 1 := by
  have h := setIntegral_le_integral (μ := volume) (s := Iic z)
    (integrable_gaussianPDFReal 0 1)
    (Eventually.of_forall fun t => gaussianPDFReal_nonneg 0 1 t)
  calc normCdf z ≤ ∫ t, gaussianPDFReal 0 1 t := h
    _ = 1 := integral_gaussianPDFReal_eq_one 0 one_ne_zero

lemma normCdf_mono : Monotone normCdf := by
  intro a b hab
  exact setIntegral_mono_set ((integrable_gaussianPDFReal 0 1).integrableOn)
    (Eventually.of_forall fun t => gaussianPDFReal_nonneg 0 1 t)
    (HasSubset.Subset.eventuallyLE (Iic_subset_Iic.mpr hab))

lemma normCdf_eq_cdf (z : ℝ) : normCdf z = cdf (gaussianReal 0 1) z := by
  rw [cdf_eq_toReal, gaussianReal_apply_eq_integral 0 one_ne_zero (Iic z)]
  exact (ENNReal.toReal_ofReal (normCdf_nonneg z)).symm

/-! ### Claims -/

/-- C10: `PIacquisition` and `EIacquisition` depend on `muNew` and `fMax` only
through their difference: shifting both by the same constant `c` leaves the
result unchanged. -/
theorem PI_EI_shift_invariant (mu std fMax epsilon c : ℝ) (h : 0 < std) :
    PIacquisition (mu + c) std (fMax + c) epsilon = PIacquisition mu std fMax epsilon ∧
    EIacquisition (mu + c) std (fMax + c) epsilon = EIacquisition mu std fMax epsilon := by
  have harg : mu + c - (fMax + c) - epsilon = mu - fMax - epsilon := by ring
  constructor
  · simp only [PIacquisition, harg]
  · simp only [EIacquisition, harg]

theorem PI_EI_shift_invariant_witness :
    (0 : ℝ) < 1 ∧
    (PIacquisition (2 + 5) 1 (0 + 5) 0 = PIacquisition 2 1 0 0 ∧
     EIacquisition (2 + 5) 1 (0 + 5) 0 = EIacquisition 2 1 0 0) :=
  ⟨one_pos, PI_EI_shift_invariant 2 1 0 0 5 one_pos⟩

/-- C9: `UCBacquisition` is translation-equivariant in `muNew`: adding `c` to
the mean adds `c` to the score, because `Kappa` depends only on `t, d, v,
delta`. -/
theorem UCB_translation_equivariant (mu std t d v delta c : ℝ)
    (ht : 1 ≤ t) (hd : 1 ≤ d) (hv : 0 < v) (hd0 : 0 < delta) (hd1 : delta < 1) :
    UCBacquisition (mu + c) std t d v delta = UCBacquisition mu std t d v delta + c := by
  simp only [UCBacquisition]
  ring

theorem UCB_translation_equivariant_witness :
    (1 : ℝ) ≤ 1 ∧ (1 : ℝ) ≤ 1 ∧ (0 : ℝ) < 1 ∧ (0 : ℝ) < 1 / 2 ∧ (1 : ℝ) / 2 < 1 ∧
    UCBacquisition (3 + 7) 2 1 1 1 (1 / 2) = UCBacquisition 3 2 1 1 1 (1 / 2) + 7 :=
  ⟨le_refl 1, le_refl 1, one_pos, by norm_num, by norm_num,
    UCB_translation_equivariant 3 2 1 1 1 (1 / 2) 7 (le_refl 1) (le_refl 1) one_pos
      (by norm_num) (by norm_num)⟩

/-- C6: for `std > 0` the value of `PIacquisition` lies in `[0, 1]`. -/
theorem PIacquisition_mem_unit_interval (mu std fMax epsilon : ℝ) (h : 0 < std) :
    0 ≤ PIacquisition mu std fMax epsilon ∧ PIacquisition mu std fMax epsilon ≤ 1 :=
  ⟨normCdf_nonneg _, normCdf_le_one _⟩

theorem PIacquisition_mem_unit_interval_witness :
    (0 : ℝ) < 1 ∧ (0 ≤ PIacquisition 1 1 0 0 ∧ PIacquisition 1 1 0 0 ≤ 1) :=
  ⟨one_pos, PIacquisition_mem_unit_interval 1 1 0 0 one_pos⟩

/-- C7: for fixed `std > 0`, `fMax`, `epsilon`, `PIacquisition` is monotonically
non-decreasing in `mu`. -/
theorem PIacquisition_mono_mu (std fMax epsilon mu1 mu2 : ℝ) (h : 0 < std)
    (hmu : mu1 ≤ mu2) :
    PIacquisition mu1 std fMax epsilon ≤ PIacquisition mu2 std fMax epsilon := by
  apply normCdf_mono
  exact div_le_div_of_nonneg_right (by linarith) h.le

theorem PIacquisition_mono_mu_witness :
    (0 : ℝ) < 1 ∧ (0 : ℝ) ≤ 1 ∧ PIacquisition 0 1 0 0 ≤ PIacquisition 1 1 0 0 :=
  ⟨one_pos, zero_le_one, PIacquisition_mono_mu 1 0 0 0 1 one_pos zero_le_one⟩

/-- C1: `PIacquisition` returns `Φ(Z)` with `Z = (mu - fMax - epsilon) / std`,
where `Φ` is the standard normal cumulative distribution function (the cdf of
the gaussian measure with mean 0 and variance 1). -/
theorem PIacquisition_eq_Phi (mu std fMax epsilon : ℝ) (h : 0 < std) :
    PIacquisition mu std fMax epsilon =
      cdf (gaussianReal 0 1) ((mu - fMax - epsilon) / std) :=
  normCdf_eq_cdf _

theorem PIacquisition_eq_Phi_witness :
    (0 : ℝ) < 1 ∧ PIacquisition 1 1 0 0 = cdf (gaussianReal 0 1) ((1 - 0 - 0) / 1) :=
  ⟨one_pos, PIacquisition_eq_Phi 1 1 0 0 one_pos⟩

/-- C2: `EIacquisition` returns `(mu - fMax - epsilon) * Φ(Z) + std * φ(Z)`
with `Z = (mu - fMax - epsilon) / std` computed exactly as in
`PIacquisition`, where `Φ` is the standard normal cdf and `φ` the standard
normal density `exp(-z²/2) / sqrt(2π)`. -/
theorem EIacquisition_eq_formula (mu std fMax epsilon : ℝ) (h : 0 < std) :
    EIacquisition mu std fMax epsilon =
      (mu - fMax - epsilon) * cdf (gaussianReal 0 1) ((mu - fMax - epsilon) / std)
        + std * (Real.exp (-(((mu - fMax - epsilon) / std) ^ 2) / 2) /
            Real.sqrt (2 * Real.pi)) := by
  rw [EIacquisition, normCdf_eq_cdf, normPdf_eq]

theorem EIacquisition_eq_formula_witness :
    (0 : ℝ) < 1 ∧
    EIacquisition 1 1 0 0 =
      (1 - 0 - 0) * cdf (gaussianReal 0 1) ((1 - 0 - 0) / 1)
        + 1 * (Real.exp (-(((1 - 0 - 0) / 1) ^ 2) / 2) / Real.sqrt (2 * Real.pi)) :=
  ⟨one_pos, EIacquisition_eq_formula 1 1 0 0 one_pos⟩

/-- C3: `UCBacquisition` returns `mu + κ * std` with
`κ = sqrt(v * 2 * ln(t^(d/2 + 2) * π² / (3 * delta)))`, the exponent using
real division, and the defaults are `v = 1`, `delta = 0.1 = 1/10`. -/
theorem UCBacquisition_eq_formula (mu std t d v delta : ℝ)
    (ht : 1 ≤ t) (hd : 1 ≤ d) (hv : 0 < v) (h0 : 0 < delta) (h1 : delta < 1) :
    UCBacquisition mu std t d v delta =
      mu + Real.sqrt (v * 2 * Real.log (t ^ (d / 2 + 2) * Real.pi ^ 2 / (3 * delta))) * std ∧
    UCBacquisitionDefault mu std t d = UCBacquisition mu std t d 1 (1 / 10) := by
  constructor
  · simp only [UCBacquisition, UCBkappa, UCBlogArg, mul_assoc]
  · norm_num [UCBacquisitionDefault]

theorem UCBacquisition_eq_formula_witness :
    (1 : ℝ) ≤ 1 ∧ (1 : ℝ) ≤ 1 ∧ (0 : ℝ) < 1 ∧ (0 : ℝ) < 1 / 2 ∧ (1 : ℝ) / 2 < 1 ∧
    (UCBacquisition 0 1 1 1 1 (1 / 2) =
      0 + Real.sqrt (1 * 2 * Real.log ((1 : ℝ) ^ ((1 : ℝ) / 2 + 2) * Real.pi ^ 2 /
        (3 * (1 / 2)))) * 1 ∧
     UCBacquisitionDefault 0 1 1 1 = UCBacquisition 0 1 1 1 1 (1 / 10)) :=
  ⟨le_refl 1, le_refl 1, one_pos, by norm_num, by norm_num,
    UCBacquisition_eq_formula 0 1 1 1 1 (1 / 2) (le_refl 1) (le_refl 1) one_pos
      (by norm_num) (by norm_num)⟩

/-- C4 counterexample: `d = 0` is non-positive, yet with `t = 2`,
`delta = 0.1` the argument of the logarithm is strictly positive, so the
code silently computes a valid score — refuting the claim that a
non-positive `d` drives the log argument to a non-positive value. -/
theorem UCB_nonpositive_d_log_arg_positive : 0 < UCBlogArg 2 0 (1 / 10) := by
  unfold UCBlogArg
  have h1 : (0 : ℝ) < (2 : ℝ) ^ ((0 : ℝ) / 2 + 2) := Real.rpow_pos_of_pos two_pos _
  have h2 : (0 : ℝ) < Real.pi ^ 2 := by positivity
  positivity

/-- C4 (amended): passing `t = 0` (with `d ≥ 1`, `delta > 0`) drives the
argument of the logarithm to 0, a non-positive value outside the domain of
the real logarithm; conversely, for `t ≥ 1`, `d ≥ 1`, `delta ∈ (0,1)` the
log argument is guaranteed positive. -/
theorem UCBlogArg_domain (t d delta : ℝ) :
    (t = 0 → 1 ≤ d → 0 < delta → UCBlogArg t d delta = 0) ∧
    (1 ≤ t → 1 ≤ d → 0 < delta → delta < 1 → 0 < UCBlogArg t d delta) := by
  constructor
  · rintro rfl hd h0
    unfold UCBlogArg
    rw [Real.zero_rpow (by linarith : (0 : ℝ) < d / 2 + 2).ne']
    simp
  · intro ht hd h0 h1
    unfold UCBlogArg
    have ha : (0 : ℝ) < t ^ (d / 2 + 2) := Real.rpow_pos_of_pos (by linarith) _
    have hb : (0 : ℝ) < Real.pi ^ 2 := by positivity
    positivity

theorem UCBlogArg_domain_witness :
    UCBlogArg 0 1 (1 / 2) = 0 ∧ 0 < UCBlogArg 1 1 (1 / 2) :=
  ⟨(UCBlogArg_domain 0 1 (1 / 2)).1 rfl (le_refl 1) (by norm_num),
   (UCBlogArg_domain 1 1 (1 / 2)).2 (le_refl 1) (le_refl 1) (by norm_num) (by norm_num)⟩

/-- C8: for fixed `mu`, `std > 0`, `d ≥ 1`, `v > 0`, `delta ∈ (0,1)`,
`UCBacquisition` is monotonically non-decreasing in the iteration count `t`. -/
theorem UCBacquisition_mono_t (mu std d v delta t1 t2 : ℝ) (hstd : 0 < std)
    (hd : 1 ≤ d) (hv : 0 < v) (h0 : 0 < delta) (h1 : delta < 1)
    (ht1 : 1 ≤ t1) (ht : t1 ≤ t2) :
    UCBacquisition mu std t1 d v delta ≤ UCBacquisition mu std t2 d v delta := by
  have hexp : (0 : ℝ) ≤ d / 2 + 2 := by linarith
  have hpos : 0 < UCBlogArg t1 d delta :=
    (UCBlogArg_domain t1 d delta).2 ht1 hd h0 h1
  have harg : UCBlogArg t1 d delta ≤ UCBlogArg t2 d delta := by
    unfold UCBlogArg
    apply div_le_div_of_nonneg_right _ (by linarith)
    exact mul_le_mul_of_nonneg_right
      (Real.rpow_le_rpow (by linarith) ht hexp) (by positivity)
  have hlog : Real.log (UCBlogArg t1 d delta) ≤ Real.log (UCBlogArg t2 d delta) :=
    Real.log_le_log hpos harg
  have hkappa : UCBkappa t1 d v delta ≤ UCBkappa t2 d v delta := by
    apply Real.sqrt_le_sqrt
    apply mul_le_mul_of_nonneg_left (by linarith) hv.le
  simp only [UCBacquisition]
  exact add_le_add_left (mul_le_mul_of_nonneg_right hkappa hstd.le) mu

theorem UCBacquisition_mono_t_witness :
    (0 : ℝ) < 1 ∧ (1 : ℝ) ≤ 1 ∧ (0 : ℝ) < 1 ∧ (0 : ℝ) < 1 / 2 ∧ (1 : ℝ) / 2 < 1 ∧
    (1 : ℝ) ≤ 1 ∧ (1 : ℝ) ≤ 2 ∧
    UCBacquisition 0 1 1 1 1 (1 / 2) ≤ UCBacquisition 0 1 2 1 1 (1 / 2) :=
  ⟨one_pos, le_refl 1, one_pos, by norm_num, by norm_num, le_refl 1, by norm_num,
    UCBacquisition_mono_t 0 1 1 1 (1 / 2) 1 2 one_pos (le_refl 1) one_pos
      (by norm_num) (by norm_num) (le_refl 1) (by norm_num)⟩

/-! ### Development for the non-negativity of expected improvement -/

lemma integrable_id_mul_normPdf : Integrable fun t : ℝ => t * normPdf t := by
  have h : Integrable fun t : ℝ =>
      (Real.sqrt (2 * Real.pi))⁻¹ * (t * Real.exp (-(1 / 2) * t ^ 2)) :=
    (integrable_mul_exp_neg_mul_sq (by norm_num)).const_mul _
  apply h.congr
  filter_upwards with t
  rw [normPdf_eq, show -(1 / 2 : ℝ) * t ^ 2 = -(t ^ 2) / 2 from by ring]
  ring

lemma tendsto_neg_normPdf_atBot : Tendsto (fun t : ℝ => -normPdf t) atBot (𝓝 0) := by
  have h1 : Tendsto (fun t : ℝ => t ^ 2) atBot atTop := by
    have h2 : Tendsto (fun t : ℝ => (-t) ^ 2) atBot atTop :=
      (tendsto_pow_atTop two_ne_zero).comp tendsto_neg_atBot_atTop
    simpa [neg_sq] using h2
  have h3 : Tendsto (fun t : ℝ => -(t ^ 2) / 2) atBot atBot :=
    (tendsto_neg_atTop_atBot.comp h1).atBot_div_const two_pos
  have h4 : Tendsto (fun t : ℝ => Real.exp (-(t ^ 2) / 2)) atBot (𝓝 0) :=
    Real.tendsto_exp_atBot.comp h3
  have h5 : Tendsto (fun t : ℝ => -(Real.exp (-(t ^ 2) / 2) / Real.sqrt (2 * Real.pi)))
      atBot (𝓝 (-(0 / Real.sqrt (2 * Real.pi)))) := (h4.div_const _).neg
  rw [zero_div, neg_zero] at h5
  apply h5.congr
  intro t
  rw [normPdf_eq]

lemma hasDerivAt_neg_normPdf (x : ℝ) :
    HasDerivAt (fun t : ℝ => -normPdf t) (x * normPdf x) x := by
  have h1 : HasDerivAt (fun t : ℝ => -(t ^ 2) / 2) (-x) x := by
    have h0 := ((hasDerivAt_pow 2 x).neg).div_const 2
    convert h0 using 1
    push_cast
    ring
  have h3 := ((h1.exp).div_const (Real.sqrt (2 * Real.pi))).neg
  have hfun : (fun t : ℝ => -(Real.exp (-(t ^ 2) / 2) / Real.sqrt (2 * Real.pi)))
      = fun t : ℝ => -normPdf t := by
    funext t
    rw [normPdf_eq]
  rw [hfun] at h3
  convert h3 using 1
  rw [normPdf_eq]
  ring

/-- First moment of the standard normal density over a left half-line:
`∫ t ≤ z, t φ(t) dt = -φ(z)`. -/
lemma integral_Iic_id_mul_normPdf (z : ℝ) :
    ∫ t in Iic z, t * normPdf t = -normPdf z := by
  have h := integral_Iic_of_hasDerivAt_of_tendsto'
    (fun x (_ : x ∈ Iic z) => hasDerivAt_neg_normPdf x)
    integrable_id_mul_normPdf.integrableOn tendsto_neg_normPdf_atBot
  simpa using h

/-- The key inequality: `z Φ(z) + φ(z) ≥ 0` for every `z`. -/
lemma mills_bound (z : ℝ) : 0 ≤ z * normCdf z + normPdf z := by
  rcases le_or_lt 0 z with hz | hz
  · have h1 : 0 ≤ z * normCdf z := mul_nonneg hz (normCdf_nonneg z)
    have h2 : 0 ≤ normPdf z := normPdf_nonneg z
    linarith
  · have hint1 : IntegrableOn (fun t : ℝ => normPdf t) (Iic z) := by
      apply Integrable.integrableOn
      exact integrable_gaussianPDFReal 0 1
    have hint2 : IntegrableOn (fun t : ℝ => t / z * normPdf t) (Iic z) := by
      apply Integrable.integrableOn
      apply (integrable_id_mul_normPdf.const_mul z⁻¹).congr
      filter_upwards with t
      ring
    have hmono : normCdf z ≤ ∫ t in Iic z, t / z * normPdf t := by
      apply setIntegral_mono_on hint1 hint2 measurableSet_Iic
      intro t htle
      have h1 : (1 : ℝ) ≤ t / z := by
        rw [le_div_iff_of_neg hz, one_mul]
        exact htle
      calc normPdf t = 1 * normPdf t := (one_mul _).symm
        _ ≤ t / z * normPdf t := mul_le_mul_of_nonneg_right h1 (normPdf_nonneg t)
    have heq : ∫ t in Iic z, t / z * normPdf t = -normPdf z / z := by
      have hpull : ∫ t in Iic z, t / z * normPdf t = z⁻¹ * ∫ t in Iic z, t * normPdf t := by
        rw [← integral_mul_left]
        apply setIntegral_congr_fun measurableSet_Iic
        intro t _
        ring
      rw [hpull, integral_Iic_id_mul_normPdf]
      field_simp
    rw [heq] at hmono
    have hz2 : z * (-normPdf z / z) ≤ z * normCdf z :=
      mul_le_mul_of_nonpos_left hmono hz.le
    have hz3 : z * (-normPdf z / z) = -normPdf z := by
      rw [mul_comm]
      exact div_mul_cancel₀ _ hz.ne
    linarith [hz2, hz3]

/-- C5: for `std > 0` the expected improvement is non-negative over exact
real arithmetic. -/
theorem EIacquisition_nonneg (mu std fMax epsilon : ℝ) (h : 0 < std) :
    0 ≤ EIacquisition mu std fMax epsilon := by
  set Z : ℝ := (mu - fMax - epsilon) / std with hZ
  have hnum : mu - fMax - epsilon = Z * std := by
    rw [hZ, div_mul_cancel₀ _ h.ne']
  have key : 0 ≤ std * (Z * normCdf Z + normPdf Z) :=
    mul_nonneg h.le (mills_bound Z)
  calc (0 : ℝ) ≤ std * (Z * normCdf Z + normPdf Z) := key
    _ = EIacquisition mu std fMax epsilon := by
        rw [EIacquisition, ← hZ, hnum]
        ring

theorem EIacquisition_nonneg_witness :
    (0 : ℝ) < 1 ∧ 0 ≤ EIacquisition 1 1 0 0 :=
  ⟨one_pos, EIacquisition_nonneg 1 1 0 0 one_pos⟩
